import Mathlib

/-!
Shallow embedding of the RGCN heterogeneous-network link-prediction notebook
(`src/02-KG/rgcn-hetnet.ipynb`) and verification of its specification claims.

Tensors are modelled over the real numbers: feature / embedding matrices as
functions `ℕ → ℕ → ℝ` (node index → dimension → value), edge lists as
`List (ℕ × ℕ)` (each pair a column of the 2×M `edge_index` tensor), edge-type
vectors as `List ℕ`, and 1-D float tensors as `List ℝ`.  External library
primitives that the notebook merely calls (the relational convolution
operator, the negative-sampling utility, the AUROC metric, the optimizer
step) are abstract function parameters; everything the notebook itself
computes is embedded concretely.
-/

namespace KG

/-- Boolean-mask indexing `xs[mask]` (numpy/torch semantics): keep the
entries of `xs` whose corresponding mask entry is `true`. -/
def maskSelect {α : Type} (xs : List α) (mask : List Bool) : List α :=
  (xs.zip mask).filterMap (fun p => if p.2 then some p.1 else none)

/-- `torch.sigmoid`: the logistic squashing function `1 / (1 + exp (-x))`. -/
noncomputable def sigmoid (x : ℝ) : ℝ := 1 / (1 + Real.exp (-x))

/-- The `DistMult` decoder (notebook lines 67-73):
`s = embed[edge_index[0, :]]`, `o = embed[edge_index[1, :]]`,
`r = model.w_rels[edge_type]`, `scores = torch.sum(s * r * o, dim=1)`,
returning `torch.sigmoid(scores)`.  `dim` is the embedding width over which
the per-edge sum runs. -/
noncomputable def DistMult (embed w_rels : ℕ → ℕ → ℝ) (dim : ℕ)
    (edges : List (ℕ × ℕ)) (edge_type : List ℕ) : List ℝ :=
  let s := edges.map (fun e => embed e.1)
  let o := edges.map (fun e => embed e.2)
  let r := edge_type.map w_rels
  ((s.zip r).zip o).map
    (fun p => sigmoid (∑ j ∈ Finset.range dim, p.1.1 j * p.1.2 j * p.2 j))

/-- The slice assignment `link_labels[:k] = 1.` applied to a float vector:
overwrite the first `k` entries with `1`. -/
def setOnes : List ℝ → ℕ → List ℝ
  | l, 0 => l
  | [], _ + 1 => []
  | _ :: xs, k + 1 => 1 :: setOnes xs k

/-- `get_link_labels` (notebook lines 77-80): a zero vector of length
`pos_len + neg_len` whose first `pos_len` entries are set to `1`. -/
def get_link_labels (pos_len neg_len : ℕ) : List ℝ :=
  setOnes (List.replicate (pos_len + neg_len) (0 : ℝ)) pos_len

/-- `F.binary_cross_entropy(probs, labels)` with the default mean reduction:
`-(1/N) * Σ (y_i * log p_i + (1 - y_i) * log (1 - p_i))`. -/
noncomputable def binary_cross_entropy (probs labels : List ℝ) : ℝ :=
  -(((probs.zip labels).map
      (fun pl => pl.2 * Real.log pl.1 + (1 - pl.2) * Real.log (1 - pl.1))).sum)
    / (probs.length : ℝ)

/-- `nn.ReLU` applied pointwise. -/
def relu (x : ℝ) : ℝ := max x 0

/-- `F.log_softmax(·, dim=1)` on one row of width `dim`:
`row j - log (Σ_k exp (row k))`. -/
noncomputable def logSoftmaxRow (dim : ℕ) (row : ℕ → ℝ) : ℕ → ℝ :=
  fun j => row j - Real.log (∑ k ∈ Finset.range dim, Real.exp (row k))

/-- A relation-aware convolution layer (`FastRGCNConv`), supplied by the
external library: it maps a feature matrix, an edge index and an edge-type
vector to a new feature matrix. -/
def ConvLayer : Type :=
  (ℕ → ℕ → ℝ) → List (ℕ × ℕ) → List ℕ → (ℕ → ℕ → ℝ)

/-- `RGCN.forward` (notebook lines 50-56): `x1 = conv1(x, ei, et)`;
`x1 = relu(x1)`; `x2 = conv2(x1, ei, et)`; `out = log_softmax(x2, dim=1)`. -/
noncomputable def RGCNforward (conv1 conv2 : ConvLayer) (out_dim : ℕ)
    (x : ℕ → ℕ → ℝ) (edge_index : List (ℕ × ℕ)) (edge_type : List ℕ) :
    ℕ → ℕ → ℝ :=
  let x1 := conv1 x edge_index edge_type
  let x1r := fun i j => relu (x1 i j)
  let x2 := conv2 x1r edge_index edge_type
  fun i => logSoftmaxRow out_dim (x2 i)

/-- `num_relations = edge_type.unique().size(0)` (notebook line 22): the
number of distinct values in the loaded edge-type vector. -/
def num_relations (edge_type : List ℕ) : ℕ := edge_type.dedup.length

/-- The parameters `RGCN.__init__` creates that the claims speak about:
the stored relation count and the per-relation weight table
`w_rels = nn.Parameter(torch.Tensor(num_rels, out_dim))`.  The random
Xavier initialisation is abstracted by the `init` argument. -/
structure RGCNInitModel where
  num_rels : ℕ
  w_rels : List (List ℝ)

/-- `RGCN.__init__` (notebook lines 38-48), restricted to the fields above:
`w_rels` is a `num_rels × out_dim` table filled by the initialiser. -/
def RGCN_init (num_rels out_dim : ℕ) (init : ℕ → ℕ → ℝ) : RGCNInitModel :=
  { num_rels := num_rels
    w_rels := (List.range num_rels).map
      (fun i => (List.range out_dim).map (fun j => init i j)) }

/-- One batch as the train/validation steps see it: the edge
index, its edge-type vector, and the boolean mask (`train_mask` or
`val_mask`) selecting the positive edges of this step. -/
structure StepData where
  edge_index : List (ℕ × ℕ)
  edge_type : List ℕ
  mask : List Bool

/-- The type of the external `negative_sampling` utility: from a positive
edge list and a requested sample count it produces a negative edge list. -/
def NegSampler : Type := List (ℕ × ℕ) → ℕ → List (ℕ × ℕ)

/-- `edge_index[:, mask]`: the positive edges of the step
(notebook lines 102 / 129). -/
def posEdges (d : StepData) : List (ℕ × ℕ) := maskSelect d.edge_index d.mask

/-- `torch.squeeze(edge_type[mask])`: the types of the positive edges
(notebook lines 103 / 130). -/
def posTypes (d : StepData) : List ℕ := maskSelect d.edge_type d.mask

/-- `negative_sampling(pos, num_neg_samples=pos.size(1))`
(notebook lines 105 / 132). -/
def negEdges (ns : NegSampler) (d : StepData) : List (ℕ × ℕ) :=
  ns (posEdges d) (posEdges d).length

/-- `torch.cat([pos, neg], dim=-1)` (notebook lines 107 / 133). -/
def totalEdges (ns : NegSampler) (d : StepData) : List (ℕ × ℕ) :=
  posEdges d ++ negEdges ns d

/-- `torch.cat([edge_type_pos, edge_type_pos[:neg.size(1)]], dim=-1)`
(notebook lines 108 / 134): the negatives are typed by a leading slice of
the positive edge-type vector. -/
def totalTypes (ns : NegSampler) (d : StepData) : List ℕ :=
  posTypes d ++ (posTypes d).take (negEdges ns d).length

/-- `get_link_labels(pos.size(1), neg.size(1))` (notebook lines 111 / 136). -/
def stepLabels (ns : NegSampler) (d : StepData) : List ℝ :=
  get_link_labels (posEdges d).length (negEdges ns d).length

/-- The decoder probabilities of the step over the concatenated edge set
(`get_metrics` → `DistMult`, notebook lines 58-59 / 112 / 137). -/
noncomputable def stepProbs (ns : NegSampler) (d : StepData)
    (embed w_rels : ℕ → ℕ → ℝ) (dim : ℕ) : List ℝ :=
  DistMult embed w_rels dim (totalEdges ns d) (totalTypes ns d)

/-- The loss of the step (`get_metrics`, notebook line 60). -/
noncomputable def stepLoss (ns : NegSampler) (d : StepData)
    (embed w_rels : ℕ → ℕ → ℝ) (dim : ℕ) : ℝ :=
  binary_cross_entropy (stepProbs ns d embed w_rels dim) (stepLabels ns d)

/-- One iteration of the per-relation evaluation loop of `validation`
(notebook lines 150-157): build the mask `edge_type == i`; if
`mask.sum() == 0` skip; otherwise apply the metric to `labels[mask]` and
`probs[mask]` and append the result to `auroc_edge_type[i]`. -/
noncomputable def perRelStep (etypes : List ℕ) (probs labels : List ℝ)
    (auroc : List ℝ → List ℝ → ℝ) (a : ℕ → List ℝ) (i : ℕ) : ℕ → List ℝ :=
  let mask := etypes.map (fun t => t == i)
  if mask.count true = 0 then a
  else fun j =>
    if j = i then a i ++ [auroc (maskSelect labels mask) (maskSelect probs mask)]
    else a j

/-- The per-relation evaluation loop of `validation`:
`for i in range(num_relations)` over `perRelStep`. -/
noncomputable def perRelUpdate (num_rels : ℕ) (etypes : List ℕ)
    (probs labels : List ℝ) (auroc : List ℝ → List ℝ → ℝ)
    (acc : ℕ → List ℝ) : ℕ → List ℝ :=
  (List.range num_rels).foldl (perRelStep etypes probs labels auroc) acc

/-- The mutable model parameters: the weights of the two convolution layers
(abstract) and the per-relation decoder weight matrix `w_rels`. -/
structure ModelParams where
  conv1W : ℕ → ℕ → ℝ
  conv2W : ℕ → ℕ → ℝ
  w_rels : ℕ → ℕ → ℝ

/-- The global metric logs that `validation` appends to. -/
structure TrainLogs where
  loss_epoch_val : List ℝ
  auroc_epoch_val : List ℝ
  auroc_edge_type : ℕ → List ℝ

/-- `validation` (notebook lines 124-157) as a transformer of the global
state `(model parameters, logs)`: it scores the concatenated positive and
negative edge set with the current `w_rels`, computes the loss and the
AUROC, appends them to the validation logs, and — when `evaluate_rel` is
set — runs the per-relation loop.  Decorated `@torch.no_grad()` and calling
no optimizer, it returns the parameters untouched. -/
noncomputable def validationStep (ns : NegSampler)
    (auroc : List ℝ → List ℝ → ℝ) (d : StepData) (embed : ℕ → ℕ → ℝ)
    (dim num_rels : ℕ) (evaluate_rel : Bool)
    (s : ModelParams × TrainLogs) : ModelParams × TrainLogs :=
  let params := s.1
  let probs := stepProbs ns d embed params.w_rels dim
  let labels := stepLabels ns d
  let loss := binary_cross_entropy probs labels
  let logs1 :=
    { s.2 with
      loss_epoch_val := s.2.loss_epoch_val ++ [loss]
      auroc_epoch_val := s.2.auroc_epoch_val ++ [auroc labels probs] }
  let logs2 :=
    if evaluate_rel then
      { logs1 with
        auroc_edge_type :=
          perRelUpdate num_rels (totalTypes ns d) probs labels auroc
            logs1.auroc_edge_type }
    else logs1
  (params, logs2)

/-- The post-training reporting loop (notebook lines 187-191):
`auroc_edge_type` starts as `{rel: [] for rel in range(num_relations)}` and
`validation(batch, embed, evaluate_rel=True)` is run on each subgraph the
sampler yields; `embedOf` gives the embedding computed for each batch. -/
noncomputable def report (ns : NegSampler) (auroc : List ℝ → List ℝ → ℝ)
    (batches : List StepData) (embedOf : StepData → ℕ → ℕ → ℝ)
    (w_rels : ℕ → ℕ → ℝ) (dim num_rels : ℕ) : ℕ → List ℝ :=
  batches.foldl
    (fun acc b =>
      perRelUpdate num_rels (totalTypes ns b)
        (stepProbs ns b (embedOf b) w_rels dim) (stepLabels ns b) auroc acc)
    (fun _ => [])

/-! ## Helper lemmas -/

theorem setOnes_replicate (p n : ℕ) :
    setOnes (List.replicate (p + n) (0 : ℝ)) p =
      List.replicate p (1 : ℝ) ++ List.replicate n (0 : ℝ) := by
  induction p with
  | zero => simp [setOnes]
  | succ p ih =>
      have h : p + 1 + n = (p + n) + 1 := by omega
      rw [h, List.replicate_succ]
      simpa [setOnes, List.replicate_succ] using ih

theorem getD_replicate_of_lt {α : Type} (a d : α) :
    ∀ (k i : ℕ), i < k → (List.replicate k a).getD i d = a := by
  intro k
  induction k with
  | zero => intro i h; omega
  | succ k ih =>
      intro i h
      cases i with
      | zero => simp [List.replicate_succ]
      | succ i => simpa [List.replicate_succ] using ih i (by omega)

theorem sigmoid_pos (x : ℝ) : 0 < sigmoid x := by
  have h := Real.exp_pos (-x)
  unfold sigmoid
  positivity

theorem sigmoid_lt_one (x : ℝ) : sigmoid x < 1 := by
  have h := Real.exp_pos (-x)
  unfold sigmoid
  rw [div_lt_one (by linarith)]
  linarith

theorem DistMult_eq_map (embed w_rels : ℕ → ℕ → ℝ) (dim : ℕ) :
    ∀ (edges : List (ℕ × ℕ)) (etype : List ℕ),
      DistMult embed w_rels dim edges etype =
        (edges.zip etype).map
          (fun p => sigmoid (∑ j ∈ Finset.range dim,
            embed p.1.1 j * w_rels p.2 j * embed p.1.2 j)) := by
  intro edges
  induction edges with
  | nil => intro etype; simp [DistMult]
  | cons e es ih =>
      intro etype
      cases etype with
      | nil => simp [DistMult]
      | cons t ts => simpa [DistMult] using ih ts

/-! ## Claims -/

/-- C3: `get_link_labels` returns a vector of length `p + n` whose first `p`
entries are `1` and whose remaining `n` entries are `0`; in particular it
contains exactly `p` ones. -/
theorem C3_get_link_labels (p n : ℕ) :
    get_link_labels p n = List.replicate p (1 : ℝ) ++ List.replicate n (0 : ℝ)
    ∧ (get_link_labels p n).length = p + n
    ∧ (get_link_labels p n).count 1 = p
    ∧ (∀ i, i < p → (get_link_labels p n).getD i 0 = 1)
    ∧ (∀ i, p ≤ i → i < p + n → (get_link_labels p n).getD i 0 = 0) := by
  have hrep := setOnes_replicate p n
  have hform : get_link_labels p n =
      List.replicate p (1 : ℝ) ++ List.replicate n (0 : ℝ) := by
    simpa [get_link_labels] using hrep
  refine ⟨hform, ?_, ?_, ?_, ?_⟩
  · rw [hform]; simp
  · rw [hform]
    simp [List.count_append, List.count_replicate]
  · intro i hi
    rw [hform, List.getD_append _ _ _ _ (by simpa using hi)]
    exact getD_replicate_of_lt 1 0 p i hi
  · intro i hpi hin
    rw [hform, List.getD_append_right _ _ _ _ (by simpa using hpi)]
    exact getD_replicate_of_lt 0 0 n (i - (List.replicate p (1 : ℝ)).length)
      (by simp; omega)

/-- Witness for C3 at `p = 2`, `n = 3`. -/
theorem C3_get_link_labels_witness :
    get_link_labels 2 3 = [1, 1, 0, 0, 0]
    ∧ (get_link_labels 2 3).getD 1 0 = 1
    ∧ (get_link_labels 2 3).getD 2 0 = 0 := by
  have h := C3_get_link_labels 2 3
  refine ⟨?_, h.2.2.2.1 1 (by norm_num), h.2.2.2.2 2 (by norm_num) (by norm_num)⟩
  rw [h.1]
  rfl

/-- C1: the DistMult decoder returns, for each edge `(s, o)` with relation
`r`, the value `sigmoid (Σ_j embed s j * w_rels r j * embed o j)`, and every
returned value lies in `[0, 1]`. -/
theorem C1_DistMult_spec (embed w_rels : ℕ → ℕ → ℝ) (dim : ℕ)
    (edges : List (ℕ × ℕ)) (etype : List ℕ) :
    DistMult embed w_rels dim edges etype =
      (edges.zip etype).map
        (fun p => sigmoid (∑ j ∈ Finset.range dim,
          embed p.1.1 j * w_rels p.2 j * embed p.1.2 j))
    ∧ ∀ v ∈ DistMult embed w_rels dim edges etype, 0 ≤ v ∧ v ≤ 1 := by
  refine ⟨DistMult_eq_map embed w_rels dim edges etype, ?_⟩
  intro v hv
  rw [DistMult_eq_map embed w_rels dim edges etype] at hv
  rcases List.mem_map.mp hv with ⟨p, -, rfl⟩
  exact ⟨le_of_lt (sigmoid_pos _), le_of_lt (sigmoid_lt_one _)⟩

/-- Witness for C1 on the single edge `(0, 1)` of relation `0` with all-ones
embedding and weights, at embedding width `1`. -/
theorem C1_DistMult_spec_witness :
    DistMult (fun _ _ => 1) (fun _ _ => 1) 1 [(0, 1)] [0] = [sigmoid 1]
    ∧ 0 ≤ sigmoid 1 ∧ sigmoid 1 ≤ 1 := by
  have h := C1_DistMult_spec (fun _ _ => 1) (fun _ _ => 1) 1 [(0, 1)] [0]
  have he : DistMult (fun _ _ => (1 : ℝ)) (fun _ _ => 1) 1 [(0, 1)] [0] =
      [sigmoid 1] := by
    rw [h.1]; norm_num
  exact ⟨he, h.2 (sigmoid 1) (by rw [he]; simp)⟩

/-- C2 counterexample: the forward pass is NOT just two relation-aware
convolutions with an activation between them — with identity convolution
layers and the all-ones feature matrix the output differs from
`conv2 (relu (conv1 x))`, because `forward` ends with a `log_softmax`. -/
theorem C2_counterexample :
    ¬ (∀ (conv1 conv2 : ConvLayer) (out_dim : ℕ) (x : ℕ → ℕ → ℝ)
        (ei : List (ℕ × ℕ)) (et : List ℕ) (i j : ℕ),
        RGCNforward conv1 conv2 out_dim x ei et i j =
          conv2 (fun a b => relu (conv1 x ei et a b)) ei et i j) := by
  intro h
  have hc := h (fun x _ _ => x) (fun x _ _ => x) 1 (fun _ _ => 1) [] [] 0 0
  simp [RGCNforward, logSoftmaxRow, relu, Real.log_exp] at hc

/-- C2 amended: the forward pass applies `conv1`, then `ReLU`, then `conv2`,
and finally a `log_softmax` over the embedding dimension: the output at
entry `(i, j)` is the `conv2∘relu∘conv1` value minus the log of the summed
exponentials of the row. -/
theorem C2_RGCNforward_amended (conv1 conv2 : ConvLayer) (out_dim : ℕ)
    (x : ℕ → ℕ → ℝ) (ei : List (ℕ × ℕ)) (et : List ℕ) (i j : ℕ) :
    RGCNforward conv1 conv2 out_dim x ei et i j =
      conv2 (fun a b => relu (conv1 x ei et a b)) ei et i j
        - Real.log (∑ k ∈ Finset.range out_dim,
            Real.exp (conv2 (fun a b => relu (conv1 x ei et a b)) ei et i k)) :=
  rfl

/-- C4: both the training and the validation step request exactly as many
negative samples as there are mask-selected positive edges, so — under the contract of the
sampler of returning the requested number of edges — the
concatenated edge set has equally many positives and negatives. -/
theorem C4_equal_pos_neg (ns : NegSampler) (d : StepData)
    (hns : ∀ es k, (ns es k).length = k) :
    (negEdges ns d).length = (posEdges d).length
    ∧ (totalEdges ns d).length = (posEdges d).length + (negEdges ns d).length
    ∧ (totalEdges ns d).length = 2 * (posEdges d).length := by
  have h1 : (negEdges ns d).length = (posEdges d).length := hns _ _
  refine ⟨h1, by simp [totalEdges], ?_⟩
  simp [totalEdges, h1]
  omega

/-- Witness for C4 on a 3-edge batch whose mask selects 2 positive edges,
with a sampler honouring its contract. -/
theorem C4_equal_pos_neg_witness :
    (negEdges (fun _ k => List.replicate k (0, 0))
        ⟨[(0, 1), (1, 2), (2, 3)], [0, 1, 2], [true, false, true]⟩).length =
      (posEdges ⟨[(0, 1), (1, 2), (2, 3)], [0, 1, 2], [true, false, true]⟩).length
    ∧ (totalEdges (fun _ k => List.replicate k (0, 0))
        ⟨[(0, 1), (1, 2), (2, 3)], [0, 1, 2], [true, false, true]⟩).length =
      (posEdges ⟨[(0, 1), (1, 2), (2, 3)], [0, 1, 2], [true, false, true]⟩).length
        + (negEdges (fun _ k => List.replicate k (0, 0))
            ⟨[(0, 1), (1, 2), (2, 3)], [0, 1, 2], [true, false, true]⟩).length
    ∧ (totalEdges (fun _ k => List.replicate k (0, 0))
        ⟨[(0, 1), (1, 2), (2, 3)], [0, 1, 2], [true, false, true]⟩).length =
      2 * (posEdges ⟨[(0, 1), (1, 2), (2, 3)], [0, 1, 2], [true, false, true]⟩).length :=
  C4_equal_pos_neg _ _ (fun es k => by simp)

/-- C10: the relation types assigned to the sampled negative edges are a
leading slice of the positive edge-type vector — the concatenated type
vector is `posTypes ++ posTypes.take (#neg)`, the part after the positives
is exactly that slice, and the result does not depend on the sampled
negative edges themselves (any sampler producing the same count yields the
same type vector). -/
theorem C10_negative_edge_types (ns : NegSampler) (d : StepData) :
    totalTypes ns d = posTypes d ++ (posTypes d).take (negEdges ns d).length
    ∧ (totalTypes ns d).drop (posTypes d).length =
        (posTypes d).take (negEdges ns d).length
    ∧ (∀ ns2 : NegSampler, (negEdges ns2 d).length = (negEdges ns d).length →
        totalTypes ns2 d = totalTypes ns d) := by
  refine ⟨rfl, ?_, ?_⟩
  · rw [totalTypes]
    exact List.drop_left _ _
  · intro ns2 hlen
    rw [totalTypes, totalTypes, hlen]

/-- Witness for C10: two samplers that return different edges but the same
count produce the same concatenated type vector. -/
theorem C10_negative_edge_types_witness :
    (totalTypes (fun _ k => List.replicate k (5, 7))
        ⟨[(0, 1), (1, 2), (2, 3)], [4, 1, 2], [true, false, true]⟩) =
      (totalTypes (fun _ k => List.replicate k (0, 0))
        ⟨[(0, 1), (1, 2), (2, 3)], [4, 1, 2], [true, false, true]⟩)
    ∧ (totalTypes (fun _ k => List.replicate k (0, 0))
        ⟨[(0, 1), (1, 2), (2, 3)], [4, 1, 2], [true, false, true]⟩).drop
        (posTypes ⟨[(0, 1), (1, 2), (2, 3)], [4, 1, 2], [true, false, true]⟩).length =
      (posTypes ⟨[(0, 1), (1, 2), (2, 3)], [4, 1, 2], [true, false, true]⟩).take
        (negEdges (fun _ k => List.replicate k (0, 0))
          ⟨[(0, 1), (1, 2), (2, 3)], [4, 1, 2], [true, false, true]⟩).length := by
  have h := C10_negative_edge_types (fun _ k => List.replicate k (0, 0))
    ⟨[(0, 1), (1, 2), (2, 3)], [4, 1, 2], [true, false, true]⟩
  exact ⟨h.2.2 _ (by decide), h.2.1⟩

/-- C8: `num_relations` is the cardinality of the edge-type set, and the
model parameter `w_rels` is created with exactly that many rows, each of
width `out_dim`. -/
theorem C8_num_relations_drives_w_rels (edge_type : List ℕ) (out_dim : ℕ)
    (init : ℕ → ℕ → ℝ) :
    num_relations edge_type = edge_type.toFinset.card
    ∧ (RGCN_init (num_relations edge_type) out_dim init).w_rels.length =
        edge_type.toFinset.card
    ∧ ∀ row ∈ (RGCN_init (num_relations edge_type) out_dim init).w_rels,
        row.length = out_dim := by
  have hcard : num_relations edge_type = edge_type.toFinset.card :=
    (List.card_toFinset edge_type).symm
  refine ⟨hcard, by simp [RGCN_init, hcard], ?_⟩
  intro row hrow
  rcases List.mem_map.mp hrow with ⟨i, -, rfl⟩
  simp

/-- Witness for C8 on the edge-type vector `[3, 1, 3, 0, 1]` (3 distinct
values) with `out_dim = 2`. -/
theorem C8_num_relations_drives_w_rels_witness :
    num_relations [3, 1, 3, 0, 1] = ([3, 1, 3, 0, 1] : List ℕ).toFinset.card
    ∧ (RGCN_init (num_relations [3, 1, 3, 0, 1]) 2 (fun _ _ => (0 : ℝ))).w_rels.length =
        ([3, 1, 3, 0, 1] : List ℕ).toFinset.card
    ∧ ((List.range 2).map (fun j => (fun _ _ => (0 : ℝ)) 0 j)).length = 2 := by
  have h := C8_num_relations_drives_w_rels [3, 1, 3, 0, 1] 2 (fun _ _ => (0 : ℝ))
  refine ⟨h.1, h.2.1, h.2.2 _ ?_⟩
  exact List.mem_map.mpr ⟨0, List.mem_range.mpr (by decide), rfl⟩

theorem perRelStep_eval_ne (etypes : List ℕ) (probs labels : List ℝ)
    (auroc : List ℝ → List ℝ → ℝ) (a : ℕ → List ℝ) (i j : ℕ) (h : j ≠ i) :
    perRelStep etypes probs labels auroc a i j = a j := by
  unfold perRelStep
  by_cases hc : (etypes.map (fun t => t == i)).count true = 0 <;> simp [hc, h]

theorem perRelStep_zero (etypes : List ℕ) (probs labels : List ℝ)
    (auroc : List ℝ → List ℝ → ℝ) (a : ℕ → List ℝ) (i : ℕ)
    (h : (etypes.map (fun t => t == i)).count true = 0) :
    perRelStep etypes probs labels auroc a i = a := by
  simp [perRelStep, h]

theorem perRelStep_self (etypes : List ℕ) (probs labels : List ℝ)
    (auroc : List ℝ → List ℝ → ℝ) (a : ℕ → List ℝ) (i : ℕ)
    (h : (etypes.map (fun t => t == i)).count true ≠ 0) :
    perRelStep etypes probs labels auroc a i i =
      a i ++ [auroc (maskSelect labels (etypes.map (fun t => t == i)))
        (maskSelect probs (etypes.map (fun t => t == i)))] := by
  simp [perRelStep, h]

theorem perRelFold_not_mem (etypes : List ℕ) (probs labels : List ℝ)
    (auroc : List ℝ → List ℝ → ℝ) :
    ∀ (L : List ℕ) (a : ℕ → List ℝ) (j : ℕ), j ∉ L →
      (L.foldl (perRelStep etypes probs labels auroc) a) j = a j := by
  intro L
  induction L with
  | nil => intro a j _; rfl
  | cons i L ih =>
      intro a j hj
      have hji : j ≠ i := fun h => hj (h ▸ List.mem_cons_self i L)
      have hjL : j ∉ L := fun h => hj (List.mem_cons_of_mem i h)
      rw [List.foldl_cons, ih _ j hjL,
        perRelStep_eval_ne etypes probs labels auroc a i j hji]

theorem perRelFold_zero (etypes : List ℕ) (probs labels : List ℝ)
    (auroc : List ℝ → List ℝ → ℝ) :
    ∀ (L : List ℕ) (a : ℕ → List ℝ) (j : ℕ),
      (etypes.map (fun t => t == j)).count true = 0 →
      (L.foldl (perRelStep etypes probs labels auroc) a) j = a j := by
  intro L
  induction L with
  | nil => intro a j _; rfl
  | cons i L ih =>
      intro a j hj
      rw [List.foldl_cons, ih _ j hj]
      by_cases hji : j = i
      · subst hji
        rw [perRelStep_zero etypes probs labels auroc a j hj]
      · exact perRelStep_eval_ne etypes probs labels auroc a i j hji

theorem perRelFold_mem (etypes : List ℕ) (probs labels : List ℝ)
    (auroc : List ℝ → List ℝ → ℝ) :
    ∀ (L : List ℕ) (a : ℕ → List ℝ) (j : ℕ), L.Nodup → j ∈ L →
      (etypes.map (fun t => t == j)).count true ≠ 0 →
      (L.foldl (perRelStep etypes probs labels auroc) a) j =
        a j ++ [auroc (maskSelect labels (etypes.map (fun t => t == j)))
          (maskSelect probs (etypes.map (fun t => t == j)))] := by
  intro L
  induction L with
  | nil => intro a j _ hj; cases hj
  | cons i L ih =>
      intro a j hnd hj hc
      have hnd2 := List.nodup_cons.mp hnd
      rw [List.foldl_cons]
      by_cases hji : j = i
      · subst hji
        rw [perRelFold_not_mem etypes probs labels auroc L _ j hnd2.1,
          perRelStep_self etypes probs labels auroc a j hc]
      · have hjL : j ∈ L := by
          cases List.mem_cons.mp hj with
          | inl h => exact absurd h hji
          | inr h => exact h
        rw [ih _ j hnd2.2 hjL hc,
          perRelStep_eval_ne etypes probs labels auroc a i j hji]

theorem maskSelect_length {α : Type} :
    ∀ (xs : List α) (ms : List Bool), xs.length = ms.length →
      (maskSelect xs ms).length = ms.count true := by
  intro xs
  induction xs with
  | nil =>
      intro ms h
      have : ms = [] := List.eq_nil_of_length_eq_zero h.symm
      subst this; rfl
  | cons x xs ih =>
      intro ms h
      cases ms with
      | nil => simp at h
      | cons b ms =>
          have hlen : xs.length = ms.length := by simpa using h
          cases b <;>
            simp [maskSelect, List.count_cons] at ih ⊢ <;>
            simpa [maskSelect] using ih ms hlen

/-- C5: in the per-relation loop, a relation `i` with zero matched edges is
skipped (its aggregate list is left untouched, the metric is not invoked),
and when `i` is evaluated the metric receives the non-empty mask-selected
label and probability lists, with exactly one metric value appended. -/
theorem C5_per_relation_guard (num_rels : ℕ) (etypes : List ℕ)
    (probs labels : List ℝ) (auroc : List ℝ → List ℝ → ℝ)
    (acc : ℕ → List ℝ) (i : ℕ)
    (hl : labels.length = etypes.length) (hp : probs.length = etypes.length) :
    ((etypes.map (fun t => t == i)).count true = 0 →
      perRelUpdate num_rels etypes probs labels auroc acc i = acc i)
    ∧ (i < num_rels → (etypes.map (fun t => t == i)).count true ≠ 0 →
        perRelUpdate num_rels etypes probs labels auroc acc i =
          acc i ++ [auroc (maskSelect labels (etypes.map (fun t => t == i)))
            (maskSelect probs (etypes.map (fun t => t == i)))]
        ∧ 0 < (maskSelect labels (etypes.map (fun t => t == i))).length
        ∧ 0 < (maskSelect probs (etypes.map (fun t => t == i))).length) := by
  constructor
  · intro hc
    exact perRelFold_zero etypes probs labels auroc _ acc i hc
  · intro hi hc
    refine ⟨perRelFold_mem etypes probs labels auroc _ acc i
      (List.nodup_range num_rels) (List.mem_range.mpr hi) hc, ?_, ?_⟩
    · rw [maskSelect_length labels _ (by simpa using hl)]
      omega
    · rw [maskSelect_length probs _ (by simpa using hp)]
      omega

/-- Witness for C5 with two relations, edge types `[0, 1]`: relation `0`
matches one edge, so one metric value over the non-empty selection is
appended. -/
theorem C5_per_relation_guard_witness :
    perRelUpdate 2 [0, 1] [(1 : ℝ) / 2, 1 / 3] [1, 0] (fun a b => a.sum + b.sum)
      (fun _ => []) 0 = [(3 : ℝ) / 2]
    ∧ 0 < (maskSelect [(1 : ℝ), 0] ([0, 1].map (fun t => t == 0))).length := by
  have h := C5_per_relation_guard 2 [0, 1] [(1 : ℝ) / 2, 1 / 3] [1, 0]
    (fun a b => a.sum + b.sum) (fun _ => []) 0 (by simp) (by simp)
  have h2 := h.2 (by norm_num) (by decide)
  refine ⟨?_, h2.2.1⟩
  rw [h2.1]
  norm_num [maskSelect, List.filterMap_cons]

/-- C6: the validation step leaves every model parameter — both
convolution-layer weights and the per-relation matrix `w_rels` — unchanged,
while still doing real work (it appends the computed loss to the log). -/
theorem C6_validation_preserves_params (ns : NegSampler)
    (auroc : List ℝ → List ℝ → ℝ) (d : StepData) (embed : ℕ → ℕ → ℝ)
    (dim num_rels : ℕ) (evaluate_rel : Bool) (s : ModelParams × TrainLogs) :
    (validationStep ns auroc d embed dim num_rels evaluate_rel s).1 = s.1
    ∧ (validationStep ns auroc d embed dim num_rels evaluate_rel s).2.loss_epoch_val.length
        = s.2.loss_epoch_val.length + 1 := by
  refine ⟨rfl, ?_⟩
  cases evaluate_rel <;> simp [validationStep]

theorem log_term_nonpos (q y : ℝ) (hy : y = 1 ∨ y = 0) (hq0 : 0 < q)
    (hq1 : q < 1) : y * Real.log q + (1 - y) * Real.log (1 - q) ≤ 0 := by
  rcases hy with rfl | rfl
  · simpa using Real.log_nonpos (le_of_lt hq0) (le_of_lt hq1)
  · simpa using Real.log_nonpos (by linarith) (by linarith)

theorem list_sum_nonpos : ∀ (l : List ℝ), (∀ x ∈ l, x ≤ 0) → l.sum ≤ 0 := by
  intro l
  induction l with
  | nil => intro _; simp
  | cons x xs ih =>
      intro h
      rw [List.sum_cons]
      have hx := h x (List.mem_cons_self x xs)
      have hxs := ih (fun y hy => h y (List.mem_cons_of_mem x hy))
      linarith

theorem bce_nonneg (probs labels : List ℝ)
    (hp : ∀ q ∈ probs, 0 < q ∧ q < 1) (hl : ∀ y ∈ labels, y = 1 ∨ y = 0) :
    0 ≤ binary_cross_entropy probs labels := by
  unfold binary_cross_entropy
  apply div_nonneg _ (Nat.cast_nonneg _)
  rw [neg_nonneg]
  apply list_sum_nonpos
  intro x hx
  rcases List.mem_map.mp hx with ⟨⟨q, y⟩, hqy, rfl⟩
  have h12 := List.of_mem_zip hqy
  exact log_term_nonpos q y (hl y h12.2) (hp q h12.1).1 (hp q h12.1).2

theorem get_link_labels_mem (p n : ℕ) :
    ∀ y ∈ get_link_labels p n, y = 1 ∨ y = 0 := by
  intro y hy
  unfold get_link_labels at hy
  rw [setOnes_replicate] at hy
  rcases List.mem_append.mp hy with h | h
  · exact Or.inl (List.eq_of_mem_replicate h)
  · exact Or.inr (List.eq_of_mem_replicate h)

/-- C9: the loss computed by `get_metrics` in a training or validation step —
the binary cross-entropy of the DistMult probabilities against the 0/1 link
labels — is a well-defined, non-negative real number (in the real-number
model every value is finite). -/
theorem C9_step_loss_nonneg (ns : NegSampler) (d : StepData)
    (embed w_rels : ℕ → ℕ → ℝ) (dim : ℕ) :
    0 ≤ stepLoss ns d embed w_rels dim := by
  unfold stepLoss stepProbs stepLabels
  apply bce_nonneg
  · intro q hq
    rw [DistMult_eq_map] at hq
    rcases List.mem_map.mp hq with ⟨pr, -, rfl⟩
    exact ⟨sigmoid_pos _, sigmoid_lt_one _⟩
  · exact get_link_labels_mem _ _

theorem report_fold_len (ns : NegSampler) (auroc : List ℝ → List ℝ → ℝ)
    (embedOf : StepData → ℕ → ℕ → ℝ) (w_rels : ℕ → ℕ → ℝ)
    (dim num_rels i : ℕ) (hi : i < num_rels) :
    ∀ (batches : List StepData) (acc : ℕ → List ℝ),
      ((batches.foldl
        (fun a b =>
          perRelUpdate num_rels (totalTypes ns b)
            (stepProbs ns b (embedOf b) w_rels dim) (stepLabels ns b) auroc a)
        acc) i).length =
      (acc i).length + batches.countP
        (fun b => !(((totalTypes ns b).map (fun t => t == i)).count true == 0)) := by
  intro batches
  induction batches with
  | nil => intro acc; simp
  | cons b bs ih =>
      intro acc
      rw [List.foldl_cons, ih, List.countP_cons]
      by_cases hc : ((totalTypes ns b).map (fun t => t == i)).count true = 0
      · rw [perRelUpdate, perRelFold_zero _ _ _ _ _ _ _ hc]
        simp [hc]
      · rw [perRelUpdate, perRelFold_mem _ _ _ _ _ _ _
          (List.nodup_range num_rels) (List.mem_range.mpr hi) hc]
        simp [hc]
        omega

/-- C7 amended: the post-training reporting loop aggregates the per-relation
AUROC over the subgraphs the sampler yields: for each relation `i`, the
aggregate collects exactly one value per sampled batch whose concatenated
edge-type vector matches `i`; edges outside the sampled batches contribute
nothing. -/
theorem C7_report_per_batch (ns : NegSampler) (auroc : List ℝ → List ℝ → ℝ)
    (batches : List StepData) (embedOf : StepData → ℕ → ℕ → ℝ)
    (w_rels : ℕ → ℕ → ℝ) (dim num_rels i : ℕ) (hi : i < num_rels) :
    (report ns auroc batches embedOf w_rels dim num_rels i).length =
      batches.countP
        (fun b => !(((totalTypes ns b).map (fun t => t == i)).count true == 0)) := by
  unfold report
  rw [report_fold_len ns auroc embedOf w_rels dim num_rels i hi batches]
  simp

/-- C7 counterexample: the reporting loop runs only over the sampled
subgraphs, so a validation edge absent from every sampled batch contributes
nothing — here the validation split of the graph contains a type-`1` edge, yet
after reporting over the sampled batch list the aggregate for relation `1`
is empty. -/
theorem C7_counterexample :
    report (fun _ k => List.replicate k (0, 0)) (fun _ _ => 0)
      [⟨[(0, 1)], [0], [true]⟩] (fun _ _ _ => 0) (fun _ _ => 0) 1 2 1 = []
    ∧ (1 : ℕ) ∈ posTypes ⟨[(0, 1), (1, 2)], [0, 1], [true, true]⟩ := by
  constructor
  · unfold report
    rw [List.foldl_cons, List.foldl_nil]
    unfold perRelUpdate
    apply perRelFold_zero
    decide
  · decide

/-- Witness for the amended C7 at relation `0` over the one-batch list. -/
theorem C7_report_per_batch_witness :
    (report (fun _ k => List.replicate k (5, 6)) (fun _ _ => 0)
      [⟨[(0, 1)], [0], [true]⟩] (fun _ _ _ => 0) (fun _ _ => 0) 1 2 0).length =
      List.countP
        (fun b => !(((totalTypes (fun _ k => List.replicate k (5, 6)) b).map
          (fun t => t == 0)).count true == 0))
        [⟨[(0, 1)], [0], [true]⟩] :=
  C7_report_per_batch (fun _ k => List.replicate k (5, 6)) (fun _ _ => 0)
    [⟨[(0, 1)], [0], [true]⟩] (fun _ _ _ => 0) (fun _ _ => 0) 1 2 0 (by norm_num)

end KG
